import Mathlib

/-!
Verification of `src/root/js/model/milstd2525/SymbolManager.js` from
emxsys/WorldWindExplorer.

The module owns a Knockout observable array of tactical symbols.  An
`arrayChange` subscriber reacts to each change record: for an `added` record
that is not part of a reorder (`moved === undefined`) it renames the added
symbol to a unique name (`doEnsureUniqueName` / `generateUniqueName`) and then
appends the symbol's placemark to the render layer; for an unmoved `deleted`
record it removes the placemark from the layer by identity and issues a
deselect notification.  `saveSymbols` / `restoreSymbols` persist a projection
of the non-invalid symbols through a JSON slot in local storage.

Embedding conventions:
* JavaScript strings are modelled as `List Char` (`JsString`); `trimJs`
  models `String.prototype.trim` on ASCII whitespace.
* JavaScript object identity (`===`) is modelled by a `ref : Nat` field on
  `Symbol`; the placemark object owned by a symbol is identified by a
  `placemark : Nat` handle.
* The observable array plus its side effects are modelled by an explicit
  `ManagerState`; the `arrayChange` subscriber body is `applyChange`, and the
  public operations (`addSymbol`, `removeSymbol`) first perform the array
  mutation and then run the subscriber on the emitted change records, exactly
  as Knockout delivers them.
* The do-while loop of `generateUniqueName` is written with explicit fuel;
  one unit of fuel is one iteration of the outer loop.  For the exact-integer
  suffix step, termination within `symbols.length + 1` iterations is proved
  below, so the `getD` fallback of `generateUniqueName` is never reached.
* The `"(n)"` suffix arithmetic exists in two forms: the exact-integer step
  `nextCandidate` (adequate wherever all suffix values stay below 2^53, in
  particular on every name the manager itself produces) and the
  float64-faithful step `nextCandidateDouble`, which composes the exact
  digit reading with `roundDouble` — the IEEE-754 round-half-to-even value
  JavaScript stores — so that `parseInt(...) + 1` stalls at 2^53 exactly as
  in the program.  The termination claim is settled against the float64
  loop.
* `findSymbol` models source line 64 as written: `this.symbols.length()`
  calls the observable function's numeric `length` (its arity), raising
  `TypeError` on every call; the intended scan is kept as `findSymbolScan`.
* JavaScript numbers appearing in persisted records are modelled as `Int`
  (no persisted-record claim depends on float arithmetic).
-/

namespace WWE

/-- JavaScript strings, modelled as lists of characters. -/
abbrev JsString := List Char

/-- ASCII whitespace recognised by the model of `String.prototype.trim`. -/
def isJsSpace (c : Char) : Bool :=
  c == ' ' || c == '\t' || c == '\n' || c == '\r'

/-- Model of `String.prototype.trim`: drop whitespace from both ends. -/
def trimJs (s : JsString) : JsString :=
  ((s.dropWhile isJsSpace).reverse.dropWhile isJsSpace).reverse

/-- The decimal digit character for a digit value below ten. -/
def digitChar (d : Nat) : Char := Char.ofNat (48 + d)

/-- Most-significant-first digit extraction, with fuel so that the kernel can
evaluate it (`fuel ≥ n` suffices). -/
def printNatAux : Nat → Nat → JsString
  | 0, _ => []
  | fuel + 1, n => if n = 0 then [] else printNatAux fuel (n / 10) ++ [digitChar (n % 10)]

/-- Decimal printing of a natural number, as JavaScript's number-to-string
conversion produces for the integers handled by `generateUniqueName`. -/
def printNat (n : Nat) : JsString :=
  if n = 0 then ['0'] else printNatAux n n

/-- Exact decimal value of a digit run (leading zeros allowed).  The
source's `parseInt(s, 10)` yields the IEEE-754 double nearest this value;
the exact reading here is composed with `roundDouble` below wherever the
number semantics matter, and agrees with `parseInt` outright below 2^53. -/
def digitsVal (ds : JsString) : Nat :=
  ds.foldl (fun a c => a * 10 + (c.toNat - 48)) 0

/-- Model of the source's regular expression test
`uniqueName.match(/[(]\d+[)]$/)` together with the extraction
`suffixes[0].match(/\d+/)` and `parseInt`: if the string ends in `(digits)`,
return the part before the suffix and the numeric value of the digits. -/
def parenSuffix (s : JsString) : Option (JsString × Nat) :=
  match s.reverse with
  | ')' :: rest =>
    if (rest.takeWhile Char.isDigit).isEmpty then none
    else
      match rest.dropWhile Char.isDigit with
      | '(' :: pre => some (pre.reverse, digitsVal (rest.takeWhile Char.isDigit).reverse)
      | _ => none
  | _ => none

/-- One collision step of `generateUniqueName` with exact integer
arithmetic: if the candidate ends in a `(n)` suffix, replace it by `(n+1)`
(the source's `uniqueName.replace(/[(]\d+[)]$/, '(' + n + ')')` with `n`
incremented); otherwise append `" (2)"`.  This coincides with the program's
float64 step (`nextCandidateDouble` below) exactly when the suffix value
stays below 2^53, which holds for every name the manager itself ever
produces from small suffixes; the float64-faithful step is used where the
distinction decides a claim. -/
def nextCandidate (s : JsString) : JsString :=
  match parenSuffix s with
  | some (p, n) => p ++ '(' :: (printNat (n + 1) ++ [')'])
  | none => s ++ [' ', '(', '2', ')']

/-- Bit count of a natural number, fuel-based so the kernel can evaluate it
(`fuel ≥ n` suffices). -/
def bitLenAux : Nat → Nat → Nat
  | 0, _ => 0
  | fuel + 1, n => if n = 0 then 0 else bitLenAux fuel (n / 2) + 1

/-- Number of binary digits of `n` (0 for 0). -/
def bitLen (n : Nat) : Nat := bitLenAux n n

/-- The nonnegative integer value of the IEEE-754 double nearest `m`
(round half to even), for `m` in the doubles' finite range: exact up to
2^53, rounded to a multiple of the unit in the last place above it.  This
is the value JavaScript number arithmetic stores for the mathematical
integer `m`. -/
def roundDouble (m : Nat) : Nat :=
  if m ≤ 2 ^ 53 then m
  else
    let u := 2 ^ (bitLen m - 53)
    let q := m / u
    let r := m % u
    if 2 * r < u then q * u
    else if u < 2 * r then (q + 1) * u
    else if q % 2 = 0 then q * u else (q + 1) * u

/-- JavaScript `+ 1` on an integral double: the mathematical successor,
rounded back to the nearest double.  From 2^53 on this can return its
argument unchanged: `9007199254740992 + 1` rounds back to `9007199254740992`
(the odd successor is not representable and the tie goes to the even
mantissa). -/
def jsAdd1 (n : Nat) : Nat := roundDouble (n + 1)

/-- One collision step of `generateUniqueName` under the source's actual
JavaScript number semantics: `parseInt(seqNos[0], 10)` produces the double
nearest the digits' exact value (`roundDouble` after `digitsVal`), and the
`+ 1` rounds again (`jsAdd1`).  Below 2^53 this coincides with
`nextCandidate`; at suffix 2^53 the increment returns its argument and the
step is the identity on the candidate. -/
def nextCandidateDouble (s : JsString) : JsString :=
  match parenSuffix s with
  | some (p, n) => p ++ '(' :: (printNat (jsAdd1 (roundDouble n)) ++ [')'])
  | none => s ++ [' ', '(', '2', ')']

/-- The value of a candidate's parenthesized suffix, 0 when it has none. -/
def suffixVal (s : JsString) : Nat :=
  match parenSuffix s with
  | some pn => pn.2
  | none => 0

/-- A tactical symbol as seen by the manager.  `ref` is the JavaScript object
identity, `name` the current value of the `name` observable, `placemark` the
identity of the attached placemark renderable. -/
structure Symbol where
  ref : Nat
  id : String
  name : JsString
  source : String
  latitude : Int
  longitude : Int
  isMovable : Bool
  invalid : Bool
  placemark : Nat
deriving DecidableEq

/-- The mutable state owned by a `SymbolManager`: the observable `symbols`
array, the render layer's `renderables` list (placemark handles), the log of
`doDeselect` notifications issued to the select controller, and the next
fresh object identity (used when `restoreSymbols` constructs new symbols). -/
structure ManagerState where
  symbols : List Symbol
  renderables : List Nat
  deselected : List Nat
  nextRef : Nat
deriving DecidableEq

/-- A manager over an empty collection and an empty render layer. -/
def initState : ManagerState := ⟨[], [], [], 0⟩

/-- The names of the symbols other than the one with identity `selfRef`
(the source's uniqueness scan skips `otherSymbol === symbol`). -/
def otherNames (symbols : List Symbol) (selfRef : Nat) : List JsString :=
  (symbols.filter (fun o => o.ref != selfRef)).map (fun o => o.name)

/-- The inner for loop of `generateUniqueName`: does any other symbol
(`otherSymbol === symbol` skipped) currently carry the candidate name? -/
def hasCollision (symbols : List Symbol) (selfRef : Nat) (cand : JsString) : Bool :=
  symbols.any (fun o => o.ref != selfRef && o.name == cand)

/-- The outer do-while loop of `generateUniqueName`, with explicit fuel; one
unit of fuel is one iteration of the loop. -/
def generateUniqueNameAux (symbols : List Symbol) (selfRef : Nat) :
    Nat → JsString → Option JsString
  | 0, _ => none
  | fuel + 1, cand =>
    if hasCollision symbols selfRef cand then
      generateUniqueNameAux symbols selfRef fuel (nextCandidate cand)
    else
      some cand

/-- The outer do-while loop with the float64 suffix step
(`nextCandidateDouble`), again with one unit of fuel per iteration.  This is
the loop the program actually runs; it agrees with `generateUniqueNameAux`
whenever every suffix value parsed along the way is below 2^53, and can fail
to terminate at 2^53. -/
def generateUniqueNameAuxDouble (symbols : List Symbol) (selfRef : Nat) :
    Nat → JsString → Option JsString
  | 0, _ => none
  | fuel + 1, cand =>
    if hasCollision symbols selfRef cand then
      generateUniqueNameAuxDouble symbols selfRef fuel (nextCandidateDouble cand)
    else
      some cand

/-- `SymbolManager.prototype.generateUniqueName`: trim the symbol's name and
run the collision loop.  The exact-integer step is used here: it models the
program faithfully on every run in which the loop completes with suffixes
below 2^53 (in particular on everything the manager itself generates), which
is the regime the completed-add claims quantify over.  Fuel
`symbols.length + 1` is proved sufficient below, so the fallback is never
reached. -/
def generateUniqueName (symbols : List Symbol) (symbol : Symbol) : JsString :=
  (generateUniqueNameAux symbols symbol.ref (symbols.length + 1)
    (trimJs symbol.name)).getD (trimJs symbol.name)

/-- The status carried by a Knockout `arrayChange` record. -/
inductive ChangeStatus
  | added
  | deleted
deriving DecidableEq

/-- A Knockout `arrayChange` record: status, affected value, and the `moved`
field, which is `undefined` (`none`) unless the change is part of a reorder,
in which case it carries the paired index. -/
structure ChangeRec where
  status : ChangeStatus
  value : Symbol
  moved : Option Nat
deriving DecidableEq

/-- The scan-and-splice loop of `doRemoveSymbolFromLayer`: remove the first
occurrence of the placemark from the renderables list, if present. -/
def removeFirst : List Nat → Nat → List Nat
  | [], _ => []
  | x :: xs, p => if x = p then xs else x :: removeFirst xs p

/-- `symbol.name(newName)`: assigning the name observable of the object with
identity `r` updates every list entry holding that object. -/
def renameTo (symbols : List Symbol) (r : Nat) (newName : JsString) : List Symbol :=
  symbols.map (fun s => if s.ref = r then { s with name := newName } else s)

/-- The body of the `arrayChange` subscriber for one change record.  An
unmoved `added` record runs `doEnsureUniqueName` (rename through
`generateUniqueName`; the array already contains the added symbol when the
subscriber fires) and `doAddSymbolToLayer` (append the placemark).  An
unmoved `deleted` record runs `doRemoveSymbolFromLayer` (splice out the
placemark by identity, then notify `doDeselect`).  A record whose `moved`
field is set is ignored. -/
def applyChange (st : ManagerState) (c : ChangeRec) : ManagerState :=
  match c.status, c.moved with
  | ChangeStatus.added, none =>
    let newName := generateUniqueName st.symbols c.value
    { st with
      symbols := renameTo st.symbols c.value.ref newName,
      renderables := st.renderables ++ [c.value.placemark] }
  | ChangeStatus.deleted, none =>
    { st with
      renderables := removeFirst st.renderables c.value.placemark,
      deselected := st.deselected ++ [c.value.ref] }
  | _, _ => st

/-- `SymbolManager.prototype.addSymbol`: push the symbol onto the observable
array; Knockout then delivers one unmoved `added` change record to the
subscriber. -/
def addSymbol (st : ManagerState) (symbol : Symbol) : ManagerState :=
  applyChange { st with symbols := st.symbols ++ [symbol] }
    ⟨ChangeStatus.added, symbol, none⟩

/-- `SymbolManager.prototype.removeSymbol`: `observableArray.remove(symbol)`
splices out every entry identical (`===`) to the argument, then delivers one
unmoved `deleted` change record per removed entry. -/
def removeSymbol (st : ManagerState) (symbol : Symbol) : ManagerState :=
  let removed := st.symbols.filter (fun s => s.ref == symbol.ref)
  removed.foldl (fun acc s => applyChange acc ⟨ChangeStatus.deleted, s, none⟩)
    { st with symbols := st.symbols.filter (fun s => s.ref != symbol.ref) }

/-- The `length` property read on the Knockout observable-array function at
source line 64: a JavaScript function's own `length` is its declared
parameter count, a Number.  Only its being a Number (not a method) matters
below. -/
def observableArrayArity : Nat := 0

/-- Calling a JavaScript Number as a function raises `TypeError`, modelled
as `Except.error`. -/
def callNumber (_ : Nat) : Except Unit Nat := Except.error ()

/-- The scan that the body of `findSymbol`'s for loop describes: the first
symbol whose `id` equals the argument, else `null` (`none`).  This is the
semantics the source's doc comment documents; in the program it is reachable
only if the loop-bound initializer returned a number. -/
def findSymbolScan : List Symbol → String → Option Symbol
  | [], _ => none
  | s :: rest, i => if s.id = i then some s else findSymbolScan rest i

/-- `SymbolManager.prototype.findSymbol` as written.  Line 64 initializes the
loop bound with `this.symbols.length()`, but `this.symbols` is the Knockout
observable function itself, whose `length` property is the function's arity
(`observableArrayArity`) — a Number, not a method — so the call raises
`TypeError` before the first loop iteration (the rest of the file uses the
working idiom `this.symbols().length`, lines 116 and 173).  Every call
therefore propagates the exception; the scan branch is dead code. -/
def findSymbol (symbols : List Symbol) (i : String) : Except Unit (Option Symbol) :=
  match callNumber observableArrayArity with
  | Except.error e => Except.error e
  | Except.ok _ => Except.ok (findSymbolScan symbols i)

/-- The projection written per symbol by `saveSymbols`. -/
structure SymbolRecord where
  id : String
  name : JsString
  source : String
  latitude : Int
  longitude : Int
  isMovable : Bool
deriving DecidableEq

/-- The field projection used by `saveSymbols` for one symbol. -/
def projRecord (s : Symbol) : SymbolRecord :=
  ⟨s.id, s.name, s.source, s.latitude, s.longitude, s.isMovable⟩

/-- `SymbolManager.prototype.saveSymbols`: the records serialized into the
marker slot — the projection of every non-invalid symbol, in order. -/
def saveSymbols (st : ManagerState) : List SymbolRecord :=
  (st.symbols.filter (fun s => !s.invalid)).map projRecord

/-- A `WorldWind.Position` as constructed by `restoreSymbols`. -/
structure Position where
  latitude : Int
  longitude : Int
  altitude : Int
deriving DecidableEq

/-- The parameter bag `restoreSymbols` passes to the symbol constructor. -/
structure SymbolParams where
  id : String
  name : JsString
  imageSource : String
  isMovable : Bool
deriving DecidableEq

/-- Modelled from the spec: the `TacticalSymbol` constructor collaborator
(`model/milstd2525/TacticalSymbol.js` is not under `src/`).  Per the spec,
given the manager, a position and a parameter bag
`{id, name, imageSource, isMovable}` it produces a Symbol carrying those
fields with an attached visual representation; `ref` is the fresh object
identity allocated for the new instance, and the attached placemark is
identified with it.  Successful construction leaves `invalid` false. -/
def mkTacticalSymbol (ref : Nat) (position : Position) (params : SymbolParams) : Symbol :=
  { ref := ref
    id := params.id
    name := params.name
    source := params.imageSource
    latitude := position.latitude
    longitude := position.longitude
    isMovable := params.isMovable
    invalid := false
    placemark := ref }

/-- Outcome of `JSON.parse(localStorage.getItem(key))` at the top of
`restoreSymbols`.  `thrown` models a `SyntaxError` raised on content that is
not well-formed JSON; `value none` models a parse result of `null` (in
particular an absent slot, since `JSON.parse(null)` parses the string
`"null"`); `value (some array)` models a well-formed persisted array. -/
inductive ParseOutcome
  | thrown
  | value (v : Option (List SymbolRecord))
deriving DecidableEq

/-- Result of `restoreSymbols`: the manager state afterwards, and whether the
call completed by propagating an exception to the caller. -/
structure RestoreResult where
  state : ManagerState
  threw : Bool
deriving DecidableEq

/-- One iteration of the restore loop: build a `Position` and parameter bag
from the record, construct a `TacticalSymbol` (with a fresh identity), and
`addSymbol` it. -/
def restoreStep (st : ManagerState) (r : SymbolRecord) : ManagerState :=
  let position : Position := ⟨r.latitude, r.longitude, 0⟩
  let params : SymbolParams := ⟨r.id, r.name, r.source, r.isMovable⟩
  addSymbol { st with nextRef := st.nextRef + 1 }
    (mkTacticalSymbol st.nextRef position params)

/-- `SymbolManager.prototype.restoreSymbols`: parse the slot; a parse failure
propagates (nothing catches `JSON.parse`'s exception); a `null` result or an
empty array leaves the collection untouched; otherwise every record is
restored through `addSymbol`. -/
def restoreSymbols (st : ManagerState) (parsed : ParseOutcome) : RestoreResult :=
  match parsed with
  | ParseOutcome.thrown => ⟨st, true⟩
  | ParseOutcome.value none => ⟨st, false⟩
  | ParseOutcome.value (some array) =>
    if array.length ≠ 0 then ⟨array.foldl restoreStep st, false⟩ else ⟨st, false⟩

/-- A client operation on the manager. -/
inductive Op
  | add (s : Symbol)
  | remove (s : Symbol)
deriving DecidableEq

/-- Run one client operation. -/
def applyOp (st : ManagerState) : Op → ManagerState
  | Op.add s => addSymbol st s
  | Op.remove s => removeSymbol st s

/-- Run a sequence of client operations. -/
def runOps (st : ManagerState) (ops : List Op) : ManagerState :=
  ops.foldl applyOp st

/-- Run a sequence of `addSymbol` calls against a fresh manager. -/
def runAdds (syms : List Symbol) : ManagerState :=
  syms.foldl addSymbol initState

/-- Every symbol added along the operation sequence is a fresh object: its
identity and its placemark's identity are new to the collection at the moment
it is added. -/
def freshOps : ManagerState → List Op → Bool
  | _, [] => true
  | st, Op.add s :: rest =>
    decide (s.ref ∉ st.symbols.map (fun t => t.ref)) &&
    decide (s.placemark ∉ st.symbols.map (fun t => t.placemark)) &&
    freshOps (addSymbol st s) rest
  | st, Op.remove s :: rest => freshOps (removeSymbol st s) rest

/-- The suffix key of a candidate: its parenthesized suffix value, a name
without a suffix being implicitly at suffix 1 (as the source treats the first
duplicate as number 2). -/
def susKey (c : JsString) : JsString × Nat :=
  match parenSuffix c with
  | some pn => pn
  | none => (c ++ [' '], 1)

/-- A concrete symbol used in witnesses: identity `r`, the given name, and a
placemark handle `r + 100`. -/
def plainSymbol (r : Nat) (nm : JsString) : Symbol :=
  ⟨r, "s", nm, "img", 0, 0, false, false, r + 100⟩

/-- A concrete symbol flagged `invalid` (as the symbol constructor does on a
construction failure), with placemark handle 5. -/
def invalidSymbol : Symbol :=
  ⟨0, "bad", ['N'], "img", 0, 0, false, true, 5⟩

/-- A name whose parenthesized suffix is 2^53 = 9007199254740992, the first
integer whose float64 increment is the identity. -/
def bigSuffixName : JsString := "X (9007199254740992)".toList

/-- A collection holding one symbol named `bigSuffixName`. -/
def bigSymbols : List Symbol := [plainSymbol 1 bigSuffixName]

/-- Three fresh symbols all named `"A"`. -/
def addSeqA : List Symbol :=
  [plainSymbol 1 ['A'], plainSymbol 2 ['A'], plainSymbol 3 ['A']]

/-- Two fresh symbols both named `"B (2)"`. -/
def addSeqB : List Symbol :=
  [plainSymbol 1 ['B', ' ', '(', '2', ')'], plainSymbol 2 ['B', ' ', '(', '2', ')']]

/-- A concrete non-empty manager state (one symbol, identity 0, its placemark
mirrored in the layer, next fresh identity 1). -/
def oneSymbolState : ManagerState :=
  ⟨[plainSymbol 0 ['A']], [100], [], 1⟩

/-- A concrete persisted record. -/
def sampleRecord : SymbolRecord :=
  ⟨"r1", ['C'], "img2", 7, 8, true⟩

/-! ### Decimal printing and suffix parsing -/

theorem digitChar_isDigit {d : Nat} (h : d < 10) : (digitChar d).isDigit = true := by
  interval_cases d <;> decide

theorem digitChar_toNat {d : Nat} (h : d < 10) : (digitChar d).toNat = 48 + d := by
  interval_cases d <;> decide

theorem printNatAux_eq (fuel : Nat) : ∀ n : Nat, n ≤ fuel →
    printNatAux fuel n = (Nat.digits 10 n).reverse.map digitChar := by
  induction fuel with
  | zero =>
    intro n hn
    interval_cases n
    simp [printNatAux]
  | succ f ih =>
    intro n hn
    by_cases h0 : n = 0
    · subst h0; simp [printNatAux]
    · have hdiv : n / 10 ≤ f := by
        have : n / 10 < n := Nat.div_lt_self (Nat.pos_of_ne_zero h0) (by norm_num)
        omega
      rw [printNatAux, if_neg h0, ih _ hdiv,
        Nat.digits_def' (by norm_num : (1 : Nat) < 10) (Nat.pos_of_ne_zero h0)]
      simp

theorem printNat_eq (n : Nat) (h : n ≠ 0) :
    printNat n = (Nat.digits 10 n).reverse.map digitChar := by
  rw [printNat, if_neg h, printNatAux_eq n n le_rfl]

theorem printNat_ne_nil (n : Nat) : printNat n ≠ [] := by
  by_cases h : n = 0
  · subst h; decide
  · rw [printNat_eq n h]
    simp [Nat.digits_ne_nil_iff_ne_zero, h]

theorem printNat_isDigit (n : Nat) : ∀ c ∈ printNat n, c.isDigit = true := by
  by_cases h : n = 0
  · subst h; decide
  · rw [printNat_eq n h]
    intro c hc
    simp only [List.mem_map, List.mem_reverse] at hc
    obtain ⟨d, hd, rfl⟩ := hc
    exact digitChar_isDigit (Nat.digits_lt_base (by norm_num) hd)

theorem digitsVal_reverse_digits (L : List Nat) (hL : ∀ d ∈ L, d < 10) (a : Nat) :
    (L.reverse.map digitChar).foldl (fun a c => a * 10 + (c.toNat - 48)) a
      = a * 10 ^ L.length + Nat.ofDigits 10 L := by
  induction L generalizing a with
  | nil => simp [Nat.ofDigits]
  | cons h t ih =>
    have hh : h < 10 := hL h (by simp)
    have ht : ∀ d ∈ t, d < 10 := fun d hd => hL d (by simp [hd])
    simp only [List.reverse_cons, List.map_append, List.foldl_append, ih ht a,
      List.map_cons, List.map_nil, List.foldl_cons, List.foldl_nil]
    rw [digitChar_toNat hh, Nat.ofDigits_cons, List.length_cons, pow_succ,
      Nat.add_sub_cancel_left]
    ring

theorem digitsVal_printNat (n : Nat) : digitsVal (printNat n) = n := by
  by_cases h : n = 0
  · subst h; decide
  · rw [printNat_eq n h]
    have hlt : ∀ d ∈ Nat.digits 10 n, d < 10 :=
      fun d hd => Nat.digits_lt_base (by norm_num) hd
    have := digitsVal_reverse_digits (Nat.digits 10 n) hlt 0
    simpa [digitsVal, Nat.ofDigits_digits] using this

theorem takeWhile_digits_append (ds rest : JsString) (hd : ∀ c ∈ ds, c.isDigit = true) :
    (ds ++ '(' :: rest).takeWhile Char.isDigit = ds := by
  induction ds with
  | nil => simp [List.takeWhile_cons, (by decide : ('(' : Char).isDigit = false)]
  | cons c cs ih =>
    have hc : c.isDigit = true := hd c (by simp)
    simp [List.takeWhile_cons, hc, ih (fun x hx => hd x (by simp [hx]))]

theorem dropWhile_digits_append (ds rest : JsString) (hd : ∀ c ∈ ds, c.isDigit = true) :
    (ds ++ '(' :: rest).dropWhile Char.isDigit = '(' :: rest := by
  induction ds with
  | nil => simp [List.dropWhile_cons, (by decide : ('(' : Char).isDigit = false)]
  | cons c cs ih =>
    have hc : c.isDigit = true := hd c (by simp)
    simp [List.dropWhile_cons, hc, ih (fun x hx => hd x (by simp [hx]))]

theorem parenSuffix_concat (p ds : JsString) (hne : ds ≠ [])
    (hd : ∀ c ∈ ds, c.isDigit = true) :
    parenSuffix (p ++ '(' :: (ds ++ [')'])) = some (p, digitsVal ds) := by
  have hrev : (p ++ '(' :: (ds ++ [')'])).reverse
      = ')' :: (ds.reverse ++ '(' :: p.reverse) := by
    simp
  have hdr : ∀ c ∈ ds.reverse, c.isDigit = true := by
    intro c hc; exact hd c (List.mem_reverse.mp hc)
  have hemp : (ds.reverse).isEmpty = false := by
    simp [List.isEmpty_iff, hne]
  simp only [parenSuffix, hrev, takeWhile_digits_append ds.reverse p.reverse hdr,
    dropWhile_digits_append ds.reverse p.reverse hdr, hemp]
  simp

/-! ### The collision loop: candidate progression and termination -/

theorem parenSuffix_nextCandidate (c : JsString) :
    parenSuffix (nextCandidate c) = some ((susKey c).1, (susKey c).2 + 1) := by
  cases h : parenSuffix c with
  | none =>
    have hform : nextCandidate c = (c ++ [' ']) ++ '(' :: (['2'] ++ [')']) := by
      simp [nextCandidate, h]
    rw [hform, parenSuffix_concat (c ++ [' ']) ['2'] (by simp) (by decide)]
    simp [susKey, h]
    decide
  | some pn =>
    obtain ⟨p, n⟩ := pn
    have hform : nextCandidate c = p ++ '(' :: (printNat (n + 1) ++ [')']) := by
      simp [nextCandidate, h]
    rw [hform,
      parenSuffix_concat p (printNat (n + 1)) (printNat_ne_nil _) (printNat_isDigit _)]
    simp [susKey, h, digitsVal_printNat]

theorem parenSuffix_iterate (c : JsString) (k : Nat) :
    parenSuffix (nextCandidate^[k + 1] c)
      = some ((susKey c).1, (susKey c).2 + 1 + k) := by
  induction k with
  | zero => simpa using parenSuffix_nextCandidate c
  | succ k ih =>
    rw [Function.iterate_succ_apply', parenSuffix_nextCandidate]
    have hkey : susKey (nextCandidate^[k + 1] c) = ((susKey c).1, (susKey c).2 + 1 + k) := by
      simp only [susKey, ih]
    rw [hkey]
    rfl

theorem iterate_nextCandidate_ne (c : JsString) {i j : Nat} (hij : i < j) :
    nextCandidate^[i] c ≠ nextCandidate^[j] c := by
  intro heq
  obtain ⟨j', rfl⟩ : ∃ j', j = j' + 1 := ⟨j - 1, by omega⟩
  cases i with
  | zero =>
    simp only [Function.iterate_zero_apply] at heq
    cases hp : parenSuffix c with
    | none =>
      have hj := parenSuffix_iterate c j'
      rw [← heq, hp] at hj
      exact Option.noConfusion hj
    | some pn =>
      have hj := parenSuffix_iterate c j'
      rw [← heq, hp] at hj
      have hkey : susKey c = pn := by simp [susKey, hp]
      rw [hkey] at hj
      obtain ⟨p, n⟩ := pn
      simp only [Option.some.injEq, Prod.mk.injEq] at hj
      omega
  | succ i' =>
    have hi := parenSuffix_iterate c i'
    have hj := parenSuffix_iterate c j'
    rw [heq] at hi
    rw [hi] at hj
    simp only [Option.some.injEq, Prod.mk.injEq] at hj
    omega

theorem hasCollision_iff (symbols : List Symbol) (selfRef : Nat) (cand : JsString) :
    hasCollision symbols selfRef cand = true ↔ cand ∈ otherNames symbols selfRef := by
  simp only [hasCollision, otherNames, List.any_eq_true, List.mem_map, List.mem_filter,
    Bool.and_eq_true, bne_iff_ne, beq_iff_eq]
  constructor
  · rintro ⟨o, ho, hne, hnm⟩
    exact ⟨o, ⟨ho, by simpa [bne_iff_ne] using hne⟩, hnm⟩
  · rintro ⟨o, ⟨ho, hne⟩, hnm⟩
    exact ⟨o, ho, by simpa [bne_iff_ne] using hne, hnm⟩

theorem exists_unique_iterate (symbols : List Symbol) (selfRef : Nat) (c : JsString) :
    ∃ j ≤ (otherNames symbols selfRef).dedup.length,
      hasCollision symbols selfRef (nextCandidate^[j] c) = false := by
  by_contra hcon
  push_neg at hcon
  have hmem : ∀ j, j ≤ (otherNames symbols selfRef).dedup.length →
      nextCandidate^[j] c ∈ otherNames symbols selfRef := by
    intro j hj
    have hne := hcon j hj
    have hb : hasCollision symbols selfRef (nextCandidate^[j] c) = true := by
      cases hx : hasCollision symbols selfRef (nextCandidate^[j] c) with
      | false => exact absurd hx hne
      | true => rfl
    exact (hasCollision_iff _ _ _).mp hb
  have hcard : (Finset.range ((otherNames symbols selfRef).dedup.length + 1)).card
      ≤ (otherNames symbols selfRef).toFinset.card := by
    apply Finset.card_le_card_of_injOn (fun j => nextCandidate^[j] c)
    · intro j hj
      rw [List.mem_toFinset]
      have hjr := Finset.mem_range.mp hj
      exact hmem j (by omega)
    · intro a ha b hb hab
      by_contra hne
      rcases Nat.lt_or_ge a b with h | h
      · exact iterate_nextCandidate_ne c h hab
      · have hba : b < a := by omega
        exact iterate_nextCandidate_ne c hba hab.symm
  rw [Finset.card_range, List.card_toFinset] at hcard
  omega

theorem generateUniqueNameAux_isSome (symbols : List Symbol) (selfRef : Nat) :
    ∀ (fuel : Nat) (c : JsString),
      (∃ j < fuel, hasCollision symbols selfRef (nextCandidate^[j] c) = false) →
      ∃ r, generateUniqueNameAux symbols selfRef fuel c = some r := by
  intro fuel
  induction fuel with
  | zero =>
    rintro c ⟨j, hj, _⟩
    omega
  | succ f ih =>
    rintro c ⟨j, hj, hcj⟩
    by_cases hc : hasCollision symbols selfRef c = true
    · have hj0 : j ≠ 0 := by
        intro h0
        subst h0
        simp only [Function.iterate_zero_apply] at hcj
        rw [hcj] at hc
        exact Bool.noConfusion hc
      obtain ⟨j', rfl⟩ : ∃ j', j = j' + 1 := ⟨j - 1, by omega⟩
      rw [Function.iterate_succ_apply] at hcj
      obtain ⟨r, hr⟩ := ih (nextCandidate c) ⟨j', by omega, hcj⟩
      exact ⟨r, by simp [generateUniqueNameAux, hc, hr]⟩
    · rw [Bool.not_eq_true] at hc
      exact ⟨c, by simp [generateUniqueNameAux, hc]⟩

theorem generateUniqueNameAux_no_collision (symbols : List Symbol) (selfRef : Nat) :
    ∀ (fuel : Nat) (c r : JsString),
      generateUniqueNameAux symbols selfRef fuel c = some r →
      hasCollision symbols selfRef r = false := by
  intro fuel
  induction fuel with
  | zero =>
    intro c r h
    simp [generateUniqueNameAux] at h
  | succ f ih =>
    intro c r h
    by_cases hc : hasCollision symbols selfRef c = true
    · simp only [generateUniqueNameAux, hc, if_true] at h
      exact ih _ _ h
    · rw [Bool.not_eq_true] at hc
      simp only [generateUniqueNameAux, hc, Bool.false_eq_true, if_false,
        Option.some.injEq] at h
      rw [← h]
      exact hc

theorem generateUniqueNameAux_total (symbols : List Symbol) (selfRef : Nat)
    (c : JsString) :
    ∃ r, generateUniqueNameAux symbols selfRef (symbols.length + 1) c = some r := by
  obtain ⟨j, hj, hcj⟩ := exists_unique_iterate symbols selfRef c
  apply generateUniqueNameAux_isSome
  refine ⟨j, ?_, hcj⟩
  have h1 : (otherNames symbols selfRef).dedup.length
      ≤ (otherNames symbols selfRef).length :=
    (List.dedup_sublist _).length_le
  have h2 : (otherNames symbols selfRef).length ≤ symbols.length := by
    rw [otherNames, List.length_map]
    exact List.length_filter_le _ _
  omega

theorem generateUniqueName_spec (symbols : List Symbol) (symbol : Symbol) :
    generateUniqueNameAux symbols symbol.ref (symbols.length + 1) (trimJs symbol.name)
      = some (generateUniqueName symbols symbol) := by
  obtain ⟨r, hr⟩ := generateUniqueNameAux_total symbols symbol.ref (trimJs symbol.name)
  rw [generateUniqueName, hr]
  rfl

theorem generateUniqueName_no_collision (symbols : List Symbol) (symbol : Symbol) :
    hasCollision symbols symbol.ref (generateUniqueName symbols symbol) = false :=
  generateUniqueNameAux_no_collision symbols symbol.ref _ _ _
    (generateUniqueName_spec symbols symbol)

theorem generateUniqueName_of_no_collision (symbols : List Symbol) (symbol : Symbol)
    (h : hasCollision symbols symbol.ref (trimJs symbol.name) = false) :
    generateUniqueName symbols symbol = trimJs symbol.name := by
  rw [generateUniqueName]
  simp [generateUniqueNameAux, h]

/-! ### State transitions of the manager -/

theorem renameTo_of_not_mem (l : List Symbol) (r : Nat) (nm : JsString)
    (h : r ∉ l.map (fun s => s.ref)) : renameTo l r nm = l := by
  induction l with
  | nil => rfl
  | cons s t ih =>
    simp only [List.map_cons, List.mem_cons, not_or] at h
    show (if s.ref = r then { s with name := nm } else s) :: renameTo t r nm = s :: t
    rw [if_neg (fun hh => h.1 hh.symm), ih h.2]

theorem renameTo_append_last (l : List Symbol) (s : Symbol) (nm : JsString)
    (h : s.ref ∉ l.map (fun t => t.ref)) :
    renameTo (l ++ [s]) s.ref nm = l ++ [{ s with name := nm }] := by
  show ((l ++ [s]).map fun t => if t.ref = s.ref then { t with name := nm } else t) = _
  rw [List.map_append]
  congr 1
  · exact renameTo_of_not_mem l s.ref nm h
  · simp

theorem renameTo_map_placemark (l : List Symbol) (r : Nat) (nm : JsString) :
    (renameTo l r nm).map (fun s => s.placemark) = l.map (fun s => s.placemark) := by
  induction l with
  | nil => rfl
  | cons s t ih =>
    show (if s.ref = r then { s with name := nm } else s).placemark
        :: (renameTo t r nm).map (fun s => s.placemark) = _
    rw [ih]
    by_cases h : s.ref = r
    · rw [if_pos h]; rfl
    · rw [if_neg h]; rfl

theorem renameTo_map_ref (l : List Symbol) (r : Nat) (nm : JsString) :
    (renameTo l r nm).map (fun s => s.ref) = l.map (fun s => s.ref) := by
  induction l with
  | nil => rfl
  | cons s t ih =>
    show (if s.ref = r then { s with name := nm } else s).ref
        :: (renameTo t r nm).map (fun s => s.ref) = _
    rw [ih]
    by_cases h : s.ref = r
    · rw [if_pos h]; rfl
    · rw [if_neg h]; rfl

theorem addSymbol_def (st : ManagerState) (s : Symbol) :
    addSymbol st s =
      { st with
        symbols := renameTo (st.symbols ++ [s]) s.ref
          (generateUniqueName (st.symbols ++ [s]) s),
        renderables := st.renderables ++ [s.placemark] } := rfl

theorem addSymbol_nextRef (st : ManagerState) (s : Symbol) :
    (addSymbol st s).nextRef = st.nextRef := rfl

theorem addSymbol_symbols_of_fresh (st : ManagerState) (s : Symbol)
    (h : s.ref ∉ st.symbols.map (fun t => t.ref)) :
    (addSymbol st s).symbols
      = st.symbols ++ [{ s with name := generateUniqueName (st.symbols ++ [s]) s }] := by
  rw [addSymbol_def]
  exact renameTo_append_last st.symbols s _ h

theorem addSymbol_newName_fresh (st : ManagerState) (s : Symbol)
    (h : s.ref ∉ st.symbols.map (fun t => t.ref)) :
    ∀ t ∈ st.symbols, t.name ≠ generateUniqueName (st.symbols ++ [s]) s := by
  intro t ht heq
  have hcol := generateUniqueName_no_collision (st.symbols ++ [s]) s
  have htr : t.ref ≠ s.ref := by
    intro he
    exact h (List.mem_map.mpr ⟨t, ht, he⟩)
  have hmem : generateUniqueName (st.symbols ++ [s]) s
      ∈ otherNames (st.symbols ++ [s]) s.ref := by
    refine List.mem_map.mpr ⟨t, ?_, heq⟩
    rw [List.mem_filter]
    exact ⟨List.mem_append_left _ ht, by simpa [bne_iff_ne] using htr⟩
  rw [← hasCollision_iff] at hmem
  rw [hmem] at hcol
  exact Bool.noConfusion hcol

theorem addSymbol_symbols_length (st : ManagerState) (s : Symbol) :
    (addSymbol st s).symbols.length = st.symbols.length + 1 := by
  rw [addSymbol_def]
  show (renameTo (st.symbols ++ [s]) _ _).length = _
  rw [renameTo, List.length_map, List.length_append]
  rfl

theorem addSymbol_no_rename (st : ManagerState) (s : Symbol)
    (h1 : s.ref ∉ st.symbols.map (fun t => t.ref))
    (h2 : trimJs s.name = s.name)
    (h3 : ∀ t ∈ st.symbols, t.name ≠ s.name) :
    (addSymbol st s).symbols = st.symbols ++ [s] := by
  rw [addSymbol_symbols_of_fresh st s h1]
  have hnc : hasCollision (st.symbols ++ [s]) s.ref (trimJs s.name) = false := by
    cases hcb : hasCollision (st.symbols ++ [s]) s.ref (trimJs s.name) with
    | false => rfl
    | true =>
      exfalso
      have hmem := (hasCollision_iff _ _ _).mp hcb
      rw [h2] at hmem
      obtain ⟨t, ht, hte⟩ := List.mem_map.mp hmem
      rw [List.mem_filter] at ht
      rcases List.mem_append.mp ht.1 with htl | htr
      · exact h3 t htl hte
      · have : t = s := by simpa using htr
        subst this
        simp [bne_iff_ne] at ht
  rw [generateUniqueName_of_no_collision (st.symbols ++ [s]) s hnc, h2]

theorem applyChange_deleted (st : ManagerState) (s : Symbol) :
    applyChange st ⟨ChangeStatus.deleted, s, none⟩
      = { st with
          renderables := removeFirst st.renderables s.placemark,
          deselected := st.deselected ++ [s.ref] } := rfl

theorem foldl_deleted_symbols (l : List Symbol) : ∀ st : ManagerState,
    (l.foldl (fun acc s => applyChange acc ⟨ChangeStatus.deleted, s, none⟩) st).symbols
      = st.symbols := by
  induction l with
  | nil => intro st; rfl
  | cons x t ih =>
    intro st
    rw [List.foldl_cons, ih]
    rfl

theorem foldl_deleted_nextRef (l : List Symbol) : ∀ st : ManagerState,
    (l.foldl (fun acc s => applyChange acc ⟨ChangeStatus.deleted, s, none⟩) st).nextRef
      = st.nextRef := by
  induction l with
  | nil => intro st; rfl
  | cons x t ih =>
    intro st
    rw [List.foldl_cons, ih]
    rfl

theorem removeSymbol_symbols (st : ManagerState) (symbol : Symbol) :
    (removeSymbol st symbol).symbols
      = st.symbols.filter (fun s => s.ref != symbol.ref) := by
  rw [removeSymbol, foldl_deleted_symbols]

theorem removeSymbol_of_absent (st : ManagerState) (symbol : Symbol)
    (h : symbol.ref ∉ st.symbols.map (fun s => s.ref)) :
    removeSymbol st symbol = st := by
  have h1 : st.symbols.filter (fun s => s.ref == symbol.ref) = [] := by
    rw [List.filter_eq_nil_iff]
    intro a ha hab
    rw [beq_iff_eq] at hab
    exact h (List.mem_map.mpr ⟨a, ha, hab⟩)
  have h2 : st.symbols.filter (fun s => s.ref != symbol.ref) = st.symbols := by
    rw [List.filter_eq_self]
    intro a ha
    rw [bne_iff_ne]
    intro hab
    exact h (List.mem_map.mpr ⟨a, ha, hab⟩)
  rw [removeSymbol, h1, h2]
  rfl

theorem filter_ref_eq_of_mem (l : List Symbol) (x : Symbol) (r : Nat)
    (hx : x ∈ l) (hr : x.ref = r) (hn : (l.map (fun s => s.ref)).Nodup) :
    l.filter (fun s => s.ref == r) = [x] := by
  induction l with
  | nil => cases hx
  | cons a t ih =>
    rw [List.map_cons, List.nodup_cons] at hn
    rcases List.mem_cons.mp hx with rfl | hxt
    · rw [List.filter_cons, if_pos (by simp [hr])]
      have hnil : t.filter (fun s => s.ref == r) = [] := by
        rw [List.filter_eq_nil_iff]
        intro b hb hbe
        rw [beq_iff_eq] at hbe
        exact hn.1 ((hr.trans hbe.symm) ▸ List.mem_map.mpr ⟨b, hb, rfl⟩)
      rw [hnil]
    · have hne : a.ref ≠ r := by
        intro he
        exact hn.1 ((he.trans hr.symm) ▸ List.mem_map.mpr ⟨x, hxt, rfl⟩)
      rw [List.filter_cons, if_neg (by simp [hne])]
      exact ih hxt hn.2

theorem filter_ref_ne_of_not_mem (l : List Symbol) (r : Nat)
    (h : ∀ s ∈ l, s.ref ≠ r) :
    l.filter (fun s => s.ref != r) = l := by
  rw [List.filter_eq_self]
  intro a ha
  rw [bne_iff_ne]
  exact h a ha

theorem removeFirst_map_placemark (l : List Symbol) (x : Symbol) (r : Nat)
    (hx : x ∈ l) (hr : x.ref = r)
    (hnR : (l.map (fun s => s.ref)).Nodup)
    (hnP : (l.map (fun s => s.placemark)).Nodup) :
    removeFirst (l.map (fun s => s.placemark)) x.placemark
      = (l.filter (fun s => s.ref != r)).map (fun s => s.placemark) := by
  induction l with
  | nil => cases hx
  | cons a t ih =>
    rw [List.map_cons, List.nodup_cons] at hnR
    rw [List.map_cons, List.nodup_cons] at hnP
    rcases List.mem_cons.mp hx with rfl | hxt
    · show removeFirst (x.placemark :: t.map (fun s => s.placemark)) x.placemark = _
      rw [removeFirst, if_pos rfl]
      rw [List.filter_cons, if_neg (by simp [hr])]
      have ht : t.filter (fun s => s.ref != r) = t := by
        apply filter_ref_ne_of_not_mem
        intro b hb hbe
        exact hnR.1 ((hr.trans hbe.symm) ▸ List.mem_map.mpr ⟨b, hb, rfl⟩)
      rw [ht]
    · have hpm : a.placemark ≠ x.placemark := by
        intro he
        exact hnP.1 (he ▸ List.mem_map.mpr ⟨x, hxt, rfl⟩)
      have hra : a.ref ≠ r := by
        intro he
        exact hnR.1 ((he.trans hr.symm) ▸ List.mem_map.mpr ⟨x, hxt, rfl⟩)
      show removeFirst (a.placemark :: t.map (fun s => s.placemark)) x.placemark = _
      rw [removeFirst, if_neg hpm, List.filter_cons, if_pos (by simp [hra])]
      rw [ih hxt hnR.2 hnP.2]
      rfl

theorem restoreSymbols_value_some (st : ManagerState) (array : List SymbolRecord) :
    restoreSymbols st (ParseOutcome.value (some array))
      = ⟨array.foldl restoreStep st, false⟩ := by
  cases array with
  | nil => rfl
  | cons a t => rfl

theorem restoreStep_def (st : ManagerState) (r : SymbolRecord) :
    restoreStep st r
      = addSymbol { st with nextRef := st.nextRef + 1 }
          (mkTacticalSymbol st.nextRef ⟨r.latitude, r.longitude, 0⟩
            ⟨r.id, r.name, r.source, r.isMovable⟩) := rfl

theorem restoreStep_nextRef (st : ManagerState) (r : SymbolRecord) :
    (restoreStep st r).nextRef = st.nextRef + 1 := rfl

theorem foldl_restoreStep_length (recs : List SymbolRecord) : ∀ st : ManagerState,
    (recs.foldl restoreStep st).symbols.length = st.symbols.length + recs.length := by
  induction recs with
  | nil => intro st; simp
  | cons r rest ih =>
    intro st
    rw [List.foldl_cons, ih]
    rw [restoreStep_def, addSymbol_symbols_length]
    show st.symbols.length + 1 + rest.length = _
    rw [List.length_cons]
    omega

/-! ### Name uniqueness along add sequences -/

theorem foldl_addSymbol_names (syms : List Symbol) :
    ∀ st : ManagerState,
      (st.symbols.map (fun s => s.ref) ++ syms.map (fun s => s.ref)).Nodup →
      List.Pairwise (fun a b => a.name ≠ b.name) st.symbols →
      List.Pairwise (fun a b => a.name ≠ b.name) (syms.foldl addSymbol st).symbols
      ∧ (syms.foldl addSymbol st).symbols.map (fun s => s.ref)
          = st.symbols.map (fun s => s.ref) ++ syms.map (fun s => s.ref) := by
  induction syms with
  | nil =>
    intro st h1 h2
    exact ⟨h2, by simp⟩
  | cons s rest ih =>
    intro st h1 h2
    have hfresh : s.ref ∉ st.symbols.map (fun t => t.ref) := by
      rw [List.map_cons, List.nodup_append] at h1
      intro hmem
      exact h1.2.2 hmem (by simp)
    have hsym := addSymbol_symbols_of_fresh st s hfresh
    have hnames := addSymbol_newName_fresh st s hfresh
    have hP : List.Pairwise (fun a b => a.name ≠ b.name) (addSymbol st s).symbols := by
      rw [hsym, List.pairwise_append]
      refine ⟨h2, List.pairwise_singleton _ _, ?_⟩
      intro a ha b hb
      have hbb : b = { s with name := generateUniqueName (st.symbols ++ [s]) s } := by
        simpa using hb
      subst hbb
      exact hnames a ha
    have hrefs : (addSymbol st s).symbols.map (fun t => t.ref)
        = st.symbols.map (fun t => t.ref) ++ [s.ref] := by
      rw [hsym, List.map_append]
      rfl
    have h1' : ((addSymbol st s).symbols.map (fun t => t.ref)
        ++ rest.map (fun t => t.ref)).Nodup := by
      rw [hrefs, List.append_assoc]
      simpa using h1
    obtain ⟨p1, p2⟩ := ih (addSymbol st s) h1' hP
    rw [List.foldl_cons]
    refine ⟨p1, ?_⟩
    rw [p2, hrefs, List.append_assoc]
    rfl

/-! ### Render-layer synchronization along add/remove sequences -/

theorem addSymbol_sync (st : ManagerState) (s : Symbol)
    (hR : (st.symbols.map (fun t => t.ref)).Nodup)
    (hP : (st.symbols.map (fun t => t.placemark)).Nodup)
    (hsync : st.renderables = st.symbols.map (fun t => t.placemark))
    (hfr : s.ref ∉ st.symbols.map (fun t => t.ref))
    (hfp : s.placemark ∉ st.symbols.map (fun t => t.placemark)) :
    (addSymbol st s).renderables = (addSymbol st s).symbols.map (fun t => t.placemark)
    ∧ ((addSymbol st s).symbols.map (fun t => t.ref)).Nodup
    ∧ ((addSymbol st s).symbols.map (fun t => t.placemark)).Nodup := by
  have hpm : (addSymbol st s).symbols.map (fun t => t.placemark)
      = st.symbols.map (fun t => t.placemark) ++ [s.placemark] := by
    rw [addSymbol_def]
    show (renameTo (st.symbols ++ [s]) _ _).map (fun t => t.placemark) = _
    rw [renameTo_map_placemark, List.map_append]
    rfl
  have hrf : (addSymbol st s).symbols.map (fun t => t.ref)
      = st.symbols.map (fun t => t.ref) ++ [s.ref] := by
    rw [addSymbol_def]
    show (renameTo (st.symbols ++ [s]) _ _).map (fun t => t.ref) = _
    rw [renameTo_map_ref, List.map_append]
    rfl
  refine ⟨?_, ?_, ?_⟩
  · show st.renderables ++ [s.placemark] = _
    rw [hpm, hsync]
  · rw [hrf, List.nodup_append]
    exact ⟨hR, List.nodup_singleton _, by simpa using fun h => hfr h⟩
  · rw [hpm, List.nodup_append]
    exact ⟨hP, List.nodup_singleton _, by simpa using fun h => hfp h⟩

theorem removeSymbol_sync (st : ManagerState) (s : Symbol)
    (hR : (st.symbols.map (fun t => t.ref)).Nodup)
    (hP : (st.symbols.map (fun t => t.placemark)).Nodup)
    (hsync : st.renderables = st.symbols.map (fun t => t.placemark)) :
    (removeSymbol st s).renderables
      = (removeSymbol st s).symbols.map (fun t => t.placemark)
    ∧ ((removeSymbol st s).symbols.map (fun t => t.ref)).Nodup
    ∧ ((removeSymbol st s).symbols.map (fun t => t.placemark)).Nodup := by
  have hsub : (removeSymbol st s).symbols.Sublist st.symbols := by
    rw [removeSymbol_symbols]
    exact List.filter_sublist st.symbols
  refine ⟨?_, List.Nodup.sublist (hsub.map _) hR, List.Nodup.sublist (hsub.map _) hP⟩
  by_cases hmem : s.ref ∈ st.symbols.map (fun t => t.ref)
  · obtain ⟨x, hx, hxr⟩ := List.mem_map.mp hmem
    have hrem : st.symbols.filter (fun t => t.ref == s.ref) = [x] :=
      filter_ref_eq_of_mem st.symbols x s.ref hx hxr hR
    rw [removeSymbol_symbols, removeSymbol, hrem]
    rw [List.foldl_cons, List.foldl_nil, applyChange_deleted]
    show removeFirst st.renderables x.placemark = _
    rw [hsync]
    exact removeFirst_map_placemark st.symbols x s.ref hx hxr hR hP
  · rw [removeSymbol_of_absent st s hmem]
    exact hsync

theorem runOps_sync : ∀ (ops : List Op) (st : ManagerState),
    (st.symbols.map (fun t => t.ref)).Nodup →
    (st.symbols.map (fun t => t.placemark)).Nodup →
    st.renderables = st.symbols.map (fun t => t.placemark) →
    freshOps st ops = true →
    (runOps st ops).renderables = (runOps st ops).symbols.map (fun t => t.placemark) := by
  intro ops
  induction ops with
  | nil =>
    intro st _ _ hsync _
    exact hsync
  | cons op rest ih =>
    intro st hR hP hsync hfr
    cases op with
    | add s =>
      rw [freshOps, Bool.and_eq_true, Bool.and_eq_true, decide_eq_true_eq,
        decide_eq_true_eq] at hfr
      obtain ⟨⟨hf1, hf2⟩, hf3⟩ := hfr
      obtain ⟨q1, q2, q3⟩ := addSymbol_sync st s hR hP hsync hf1 hf2
      exact ih (addSymbol st s) q2 q3 q1 hf3
    | remove s =>
      rw [freshOps] at hfr
      obtain ⟨q1, q2, q3⟩ := removeSymbol_sync st s hR hP hsync
      exact ih (removeSymbol st s) q2 q3 q1 hfr

/-! ### Restoration from persisted records -/

theorem foldl_restoreStep_appends (recs : List SymbolRecord) :
    ∀ st : ManagerState, (∀ s ∈ st.symbols, s.ref < st.nextRef) →
      ∃ tail, (recs.foldl restoreStep st).symbols = st.symbols ++ tail
        ∧ tail.map (fun s => s.id) = recs.map (fun r => r.id) := by
  induction recs with
  | nil =>
    intro st _
    exact ⟨[], by simp, by simp⟩
  | cons r rest ih =>
    intro st hbound
    have hfresh : (mkTacticalSymbol st.nextRef ⟨r.latitude, r.longitude, 0⟩
        ⟨r.id, r.name, r.source, r.isMovable⟩).ref
        ∉ ({ st with nextRef := st.nextRef + 1 } : ManagerState).symbols.map
          (fun t => t.ref) := by
      intro hm
      obtain ⟨t, ht, hte⟩ := List.mem_map.mp hm
      have := hbound t ht
      rw [hte] at this
      exact absurd this (by simp [mkTacticalSymbol])
    obtain ⟨y, hy, hyid, hyref⟩ : ∃ y, (restoreStep st r).symbols = st.symbols ++ [y]
        ∧ y.id = r.id ∧ y.ref = st.nextRef :=
      ⟨_, by rw [restoreStep_def]; exact addSymbol_symbols_of_fresh _ _ hfresh, rfl, rfl⟩
    have hbound' : ∀ s ∈ (restoreStep st r).symbols, s.ref < (restoreStep st r).nextRef := by
      intro s hs
      rw [restoreStep_nextRef]
      rw [hy] at hs
      rcases List.mem_append.mp hs with hl | hr2
      · have := hbound s hl
        omega
      · have hse : s = y := by simpa using hr2
        rw [hse, hyref]
        omega
    obtain ⟨tail, htail, hids⟩ := ih (restoreStep st r) hbound'
    refine ⟨y :: tail, ?_, ?_⟩
    · rw [List.foldl_cons, htail, hy, List.append_assoc]
      rfl
    · rw [List.map_cons, hids, hyid]
      rfl

theorem foldl_restoreStep_exact (recs : List SymbolRecord) :
    ∀ st : ManagerState,
      (∀ r ∈ recs, trimJs r.name = r.name) →
      List.Pairwise (fun a b => a.name ≠ b.name) recs →
      (∀ s ∈ st.symbols, s.ref < st.nextRef) →
      (∀ s ∈ st.symbols, ∀ r ∈ recs, s.name ≠ r.name) →
      (recs.foldl restoreStep st).symbols.map projRecord
          = st.symbols.map projRecord ++ recs
      ∧ (∀ s ∈ (recs.foldl restoreStep st).symbols, s ∈ st.symbols ∨ s.invalid = false) := by
  induction recs with
  | nil =>
    intro st _ _ _ _
    exact ⟨by simp, fun s hs => Or.inl hs⟩
  | cons r rest ih =>
    intro st htrim hpw hbound hdisj
    have hname : (mkTacticalSymbol st.nextRef ⟨r.latitude, r.longitude, 0⟩
        ⟨r.id, r.name, r.source, r.isMovable⟩).name = r.name := rfl
    have hst : (restoreStep st r).symbols
        = st.symbols ++ [mkTacticalSymbol st.nextRef ⟨r.latitude, r.longitude, 0⟩
            ⟨r.id, r.name, r.source, r.isMovable⟩] := by
      rw [restoreStep_def]
      apply addSymbol_no_rename
      · intro hm
        obtain ⟨t, ht, hte⟩ := List.mem_map.mp hm
        have := hbound t ht
        rw [hte] at this
        exact absurd this (by simp [mkTacticalSymbol])
      · rw [hname]
        exact htrim r (by simp)
      · intro t ht
        rw [hname]
        exact hdisj t ht r (by simp)
    have hbound' : ∀ s ∈ (restoreStep st r).symbols, s.ref < (restoreStep st r).nextRef := by
      intro s hs
      rw [restoreStep_nextRef]
      rw [hst] at hs
      rcases List.mem_append.mp hs with hl | hr
      · have := hbound s hl
        omega
      · have hse : s = mkTacticalSymbol st.nextRef ⟨r.latitude, r.longitude, 0⟩
            ⟨r.id, r.name, r.source, r.isMovable⟩ := by simpa using hr
        rw [hse]
        exact Nat.lt_succ_self _
    have hdisj' : ∀ s ∈ (restoreStep st r).symbols, ∀ r' ∈ rest, s.name ≠ r'.name := by
      intro s hs r' hr'
      rw [hst] at hs
      rcases List.mem_append.mp hs with hl | hr
      · exact hdisj s hl r' (by simp [hr'])
      · have hse : s = mkTacticalSymbol st.nextRef ⟨r.latitude, r.longitude, 0⟩
            ⟨r.id, r.name, r.source, r.isMovable⟩ := by simpa using hr
        rw [hse, hname]
        exact (List.pairwise_cons.mp hpw).1 r' hr'
    obtain ⟨p1, p2⟩ := ih (restoreStep st r)
      (fun r' h' => htrim r' (by simp [h'])) (List.pairwise_cons.mp hpw).2 hbound' hdisj'
    constructor
    · rw [List.foldl_cons, p1, hst, List.map_append]
      show _ ++ [projRecord _] ++ rest = _
      have hpr : projRecord (mkTacticalSymbol st.nextRef ⟨r.latitude, r.longitude, 0⟩
          ⟨r.id, r.name, r.source, r.isMovable⟩) = r := rfl
      rw [hpr, List.append_assoc]
      rfl
    · intro s hs
      rw [List.foldl_cons] at hs
      rcases p2 s hs with hold | hinv
      · rw [hst] at hold
        rcases List.mem_append.mp hold with hl | hr
        · exact Or.inl hl
        · have hse : s = mkTacticalSymbol st.nextRef ⟨r.latitude, r.longitude, 0⟩
              ⟨r.id, r.name, r.source, r.isMovable⟩ := by simpa using hr
          rw [hse]
          exact Or.inr rfl
      · exact Or.inr hinv

/-! ### Claim theorems -/

/-- C1: for every sequence of `addSymbol` calls (each adding a fresh symbol
instance, i.e. pairwise distinct object identities), after the adds complete
(each add's `arrayChange` subscriber having run `doEnsureUniqueName`), no two
Symbols in the Collection have the same `name` value.  Quantifying over all
sequences covers the state after each individual add of any fixed sequence. -/
theorem c1_names_unique (syms : List Symbol)
    (h : (syms.map (fun s => s.ref)).Nodup) :
    List.Pairwise (fun a b => a.name ≠ b.name) (runAdds syms).symbols := by
  have hall := foldl_addSymbol_names syms initState (by simpa [initState] using h)
    (by simp [initState])
  exact hall.1

/-- Witness for C1 at a concrete two-element add sequence with colliding
requested names. -/
theorem c1_names_unique_witness :
    (([plainSymbol 1 ['A'], plainSymbol 2 ['A']].map (fun s => s.ref)).Nodup)
    ∧ List.Pairwise (fun a b => a.name ≠ b.name)
        (runAdds [plainSymbol 1 ['A'], plainSymbol 2 ['A']]).symbols :=
  ⟨by decide, c1_names_unique [plainSymbol 1 ['A'], plainSymbol 2 ['A']] (by decide)⟩

/-- C2 counterexample: the subscriber adds the placemark of an added symbol
to the render layer without consulting the `invalid` flag
(`doAddSymbolToLayer` is unconditional), so after adding a symbol flagged
`invalid` its placemark (handle 5) is present in the render layer while the
set of placemarks owned by non-invalid symbols in the Collection is empty —
the claimed bijection that excludes invalid symbols fails. -/
theorem c2_bijection_counterexample :
    5 ∈ (addSymbol initState invalidSymbol).renderables
    ∧ 5 ∉ (((addSymbol initState invalidSymbol).symbols.filter
        (fun s => !s.invalid)).map (fun s => s.placemark)) := by
  decide

/-- C2 amended: for every sequence of `addSymbol`/`removeSymbol` operations
on fresh symbol instances, after each operation's change records are
processed the render layer's item list equals the placemarks owned by ALL
Symbols currently in the Collection — including those flagged `invalid`,
which the synchronizer does not exclude. -/
theorem c2_layer_matches_all_symbols (ops : List Op)
    (h : freshOps initState ops = true) :
    (runOps initState ops).renderables
      = (runOps initState ops).symbols.map (fun s => s.placemark) :=
  runOps_sync ops initState (by simp [initState]) (by simp [initState]) rfl h

/-- Witness for the amended C2 on a concrete sequence that adds an invalid
symbol, adds a fresh symbol, and removes the invalid one. -/
theorem c2_layer_matches_all_symbols_witness :
    freshOps initState
        [Op.add invalidSymbol, Op.add (plainSymbol 1 ['A']), Op.remove invalidSymbol]
      = true
    ∧ (runOps initState
        [Op.add invalidSymbol, Op.add (plainSymbol 1 ['A']), Op.remove invalidSymbol]).renderables
      = (runOps initState
          [Op.add invalidSymbol, Op.add (plainSymbol 1 ['A']),
            Op.remove invalidSymbol]).symbols.map (fun s => s.placemark) :=
  ⟨by decide, c2_layer_matches_all_symbols
    [Op.add invalidSymbol, Op.add (plainSymbol 1 ['A']), Op.remove invalidSymbol]
    (by decide)⟩

/-- C3: the resolver appends `" (2)"` to a colliding candidate without a
parenthesized integer suffix and increments the suffix when one exists,
rescanning until unique: adding three symbols named `"A"` yields names
`"A"`, `"A (2)"`, `"A (3)"`, and adding `"B (2)"` twice yields `"B (2)"`,
`"B (3)"`. -/
theorem c3_suffix_progression :
    (runAdds addSeqA).symbols.map (fun s => s.name)
        = [['A'], ['A', ' ', '(', '2', ')'], ['A', ' ', '(', '3', ')']]
    ∧ (runAdds addSeqB).symbols.map (fun s => s.name)
        = [['B', ' ', '(', '2', ')'], ['B', ' ', '(', '3', ')']] := by
  decide

/-- The intended linear scan (the dead branch of `findSymbol`, and what the
rest of the file's `this.symbols().length` idiom would make it): `none`
exactly when no symbol carries the requested id; on a hit, the returned
symbol carries the id and is the first such element. -/
theorem findSymbolScan_first_match (symbols : List Symbol) (i : String) :
    (findSymbolScan symbols i = none → ∀ s ∈ symbols, s.id ≠ i)
    ∧ (∀ s, findSymbolScan symbols i = some s →
        s.id = i ∧ ∃ pre post, symbols = pre ++ s :: post ∧ ∀ t ∈ pre, t.id ≠ i) := by
  induction symbols with
  | nil =>
    exact ⟨fun _ s hs => absurd hs (List.not_mem_nil s),
      fun s h => Option.noConfusion h⟩
  | cons a rest ih =>
    by_cases ha : a.id = i
    · constructor
      · intro h
        rw [findSymbolScan, if_pos ha] at h
        exact Option.noConfusion h
      · intro s h
        rw [findSymbolScan, if_pos ha] at h
        have hsa : a = s := by simpa using h
        subst hsa
        exact ⟨ha, [], rest, rfl, by simp⟩
    · constructor
      · intro h s hs
        rw [findSymbolScan, if_neg ha] at h
        rcases List.mem_cons.mp hs with rfl | hs2
        · exact ha
        · exact ih.1 h s hs2
      · intro s h
        rw [findSymbolScan, if_neg ha] at h
        obtain ⟨h1, pre, post, heq, hpre⟩ := ih.2 s h
        refine ⟨h1, a :: pre, post, by rw [List.cons_append, heq], ?_⟩
        intro t ht
        rcases List.mem_cons.mp ht with rfl | ht2
        · exact ha
        · exact hpre t ht2

/-- C4 (code bug): the program's `findSymbol` never performs its scan.  Line
64 initializes the loop bound with `this.symbols.length()`; `this.symbols`
is the observable-array function, whose `length` property is the function's
arity — a Number — so calling it raises `TypeError` on every invocation,
before the first iteration.  Evaluated at a concrete collection and id, and
for every collection and id, the call propagates the exception instead of
returning the first match or null; the claim describes the function's
documented intent (`findSymbolScan`), which the code contradicts. -/
theorem c4_findSymbol_throws :
    findSymbol oneSymbolState.symbols "s" = Except.error ()
    ∧ ∀ (symbols : List Symbol) (i : String),
        findSymbol symbols i = Except.error () :=
  ⟨rfl, fun _ _ => rfl⟩

/-- C5 counterexample: on store content that fails to parse (corrupt JSON),
`JSON.parse` raises and nothing in `restoreSymbols` catches it, so the call
does not return normally — it propagates the exception to the caller,
contradicting the claim that restore "returns normally rather than failing
the caller". -/
theorem c5_restore_counterexample :
    (restoreSymbols initState ParseOutcome.thrown).threw = true := rfl

/-- C5 amended: absent store content (which parses to `null`) and a `null`
or empty-array parse leave the Collection unchanged and return normally;
content that fails to parse leaves the Collection unchanged but propagates
the parse exception to the caller instead of returning normally; a present,
well-formed array leads to exactly one `addSymbol` per record. -/
theorem c5_restore_amended (st : ManagerState) (recs : List SymbolRecord) :
    restoreSymbols st ParseOutcome.thrown = ⟨st, true⟩
    ∧ restoreSymbols st (ParseOutcome.value none) = ⟨st, false⟩
    ∧ restoreSymbols st (ParseOutcome.value (some [])) = ⟨st, false⟩
    ∧ (restoreSymbols st (ParseOutcome.value (some recs))).threw = false
    ∧ (restoreSymbols st (ParseOutcome.value (some recs))).state.symbols.length
        = st.symbols.length + recs.length := by
  refine ⟨rfl, rfl, rfl, ?_, ?_⟩
  · rw [restoreSymbols_value_some]
  · rw [restoreSymbols_value_some]
    exact foldl_restoreStep_length recs st

/-- C6: a change record whose `moved` flag is set (one half of a reorder's
paired deleted+added records) causes no render-layer mutation, no name
change and no deselect notification: the subscriber leaves the whole manager
state exactly as it was. -/
theorem c6_reorder_transparent (st : ManagerState) (c : ChangeRec) (i : Nat)
    (h : c.moved = some i) : applyChange st c = st := by
  obtain ⟨cs, cv, cm⟩ := c
  simp only at h
  subst h
  cases cs <;> rfl

/-- Witness for C6 at a concrete moved `added` record. -/
theorem c6_reorder_transparent_witness :
    (⟨ChangeStatus.added, plainSymbol 1 ['A'], some 0⟩ : ChangeRec).moved = some 0
    ∧ applyChange oneSymbolState ⟨ChangeStatus.added, plainSymbol 1 ['A'], some 0⟩
        = oneSymbolState :=
  ⟨rfl, c6_reorder_transparent oneSymbolState
    ⟨ChangeStatus.added, plainSymbol 1 ['A'], some 0⟩ 0 rfl⟩

/-- C7: `saveSymbols` followed by `restoreSymbols` into a fresh manager
reproduces exactly the `{id, name, source, latitude, longitude, isMovable}`
fields of every non-invalid symbol, in order, and every restored symbol is
non-invalid (so no symbol flagged invalid at save time reappears).  The
hypotheses — non-invalid names pairwise distinct and trimmed — hold of every
state reachable through the manager's own operations, whose names are
produced by `generateUniqueName`. -/
theorem c7_save_restore_round_trip (st : ManagerState)
    (hpw : List.Pairwise (fun a b => a.name ≠ b.name)
      (st.symbols.filter (fun s => !s.invalid)))
    (htrim : ∀ s ∈ st.symbols.filter (fun s => !s.invalid), trimJs s.name = s.name) :
    (restoreSymbols initState
        (ParseOutcome.value (some (saveSymbols st)))).state.symbols.map projRecord
      = saveSymbols st
    ∧ ∀ s ∈ (restoreSymbols initState
        (ParseOutcome.value (some (saveSymbols st)))).state.symbols,
        s.invalid = false := by
  rw [restoreSymbols_value_some]
  have h1 : ∀ r ∈ saveSymbols st, trimJs r.name = r.name := by
    intro r hr
    obtain ⟨s, hs, rfl⟩ := List.mem_map.mp hr
    exact htrim s hs
  have h2 : List.Pairwise (fun a b => a.name ≠ b.name) (saveSymbols st) := by
    rw [saveSymbols]
    exact List.pairwise_map.mpr hpw
  obtain ⟨p1, p2⟩ := foldl_restoreStep_exact (saveSymbols st) initState h1 h2
    (by simp [initState]) (by simp [initState])
  refine ⟨by simpa [initState] using p1, ?_⟩
  intro s hs
  rcases p2 s hs with hmem | hinv
  · exact absurd hmem (by simp [initState])
  · exact hinv

/-- Witness for C7 at a concrete state holding one valid and one invalid
symbol. -/
theorem c7_save_restore_round_trip_witness :
    List.Pairwise (fun a b => a.name ≠ b.name)
      ((⟨[plainSymbol 1 ['A'], invalidSymbol], [101, 5], [], 2⟩ : ManagerState).symbols.filter
        (fun s => !s.invalid))
    ∧ (∀ s ∈ (⟨[plainSymbol 1 ['A'], invalidSymbol], [101, 5], [], 2⟩
        : ManagerState).symbols.filter (fun s => !s.invalid), trimJs s.name = s.name)
    ∧ ((restoreSymbols initState (ParseOutcome.value (some (saveSymbols
          ⟨[plainSymbol 1 ['A'], invalidSymbol], [101, 5], [], 2⟩)))).state.symbols.map
            projRecord
        = saveSymbols ⟨[plainSymbol 1 ['A'], invalidSymbol], [101, 5], [], 2⟩
      ∧ ∀ s ∈ (restoreSymbols initState (ParseOutcome.value (some (saveSymbols
          ⟨[plainSymbol 1 ['A'], invalidSymbol], [101, 5], [], 2⟩)))).state.symbols,
          s.invalid = false) :=
  ⟨by decide, by decide,
    c7_save_restore_round_trip ⟨[plainSymbol 1 ['A'], invalidSymbol], [101, 5], [], 2⟩
      (by decide) (by decide)⟩

/-- Termination of the exact-integer loop within `|existingNames| + 1`
iterations (`existingNames` the deduplicated other-symbol names): each
collision strictly increases the exact suffix, so the iterated candidates
are pairwise distinct and each failure consumes a distinct existing name. -/
theorem generateUniqueNameAux_dedup_total (symbols : List Symbol) (selfRef : Nat)
    (cand : JsString) :
    ∃ r, generateUniqueNameAux symbols selfRef
        ((otherNames symbols selfRef).dedup.length + 1) cand = some r := by
  obtain ⟨j, hj, hcj⟩ := exists_unique_iterate symbols selfRef cand
  exact generateUniqueNameAux_isSome symbols selfRef _ cand ⟨j, by omega, hcj⟩

theorem roundDouble_of_le (m : Nat) (h : m ≤ 2 ^ 53) : roundDouble m = m := by
  rw [roundDouble, if_pos h]

theorem suffixVal_eq_of_parenSuffix (c : JsString) (p : JsString) (n : Nat)
    (h : parenSuffix c = some (p, n)) : suffixVal c = n := by
  simp [suffixVal, h]

theorem nextCandidateDouble_eq_nextCandidate (c : JsString)
    (h : suffixVal c < 2 ^ 53) :
    nextCandidateDouble c = nextCandidate c := by
  cases hp : parenSuffix c with
  | none => simp [nextCandidateDouble, nextCandidate, hp]
  | some pn =>
    obtain ⟨p, n⟩ := pn
    have hn : n < 2 ^ 53 := by
      have := suffixVal_eq_of_parenSuffix c p n hp
      omega
    simp only [nextCandidateDouble, nextCandidate, hp]
    rw [roundDouble_of_le n (by omega), jsAdd1, roundDouble_of_le (n + 1) (by omega)]

theorem generateUniqueNameAuxDouble_eq (symbols : List Symbol) (selfRef : Nat)
    (H : ∀ nm ∈ otherNames symbols selfRef, suffixVal nm < 2 ^ 53) :
    ∀ (fuel : Nat) (c : JsString),
      generateUniqueNameAuxDouble symbols selfRef fuel c
        = generateUniqueNameAux symbols selfRef fuel c := by
  intro fuel
  induction fuel with
  | zero => intro c; rfl
  | succ f ih =>
    intro c
    by_cases hc : hasCollision symbols selfRef c = true
    · have hmem := (hasCollision_iff _ _ _).mp hc
      have hlt := H c hmem
      simp only [generateUniqueNameAuxDouble, generateUniqueNameAux, hc, if_true,
        nextCandidateDouble_eq_nextCandidate c hlt, ih]
    · rw [Bool.not_eq_true] at hc
      simp only [generateUniqueNameAuxDouble, generateUniqueNameAux, hc,
        Bool.false_eq_true, if_false]

/-- C8 counterexample: with one other symbol named `"X (9007199254740992)"`
(suffix 2^53) and the same string as the candidate, the program's float64
step is the identity — `parseInt` reads 2^53 and `+ 1` rounds back to 2^53,
reproducing the same candidate — so the collision persists and the loop has
produced no result after `|existingNames| + 1` iterations, falsifying the
claim as stated; since the step is the identity and the collision remains,
no amount of further iteration helps and the program loops forever. -/
theorem c8_termination_counterexample :
    generateUniqueNameAuxDouble bigSymbols 2
        ((otherNames bigSymbols 2).dedup.length + 1) bigSuffixName = none
    ∧ nextCandidateDouble bigSuffixName = bigSuffixName
    ∧ hasCollision bigSymbols 2 bigSuffixName = true := by
  decide

/-- C8 amended: for every candidate name and every finite set of existing
names whose parenthesized-suffix values all lie below 2^53 — the range in
which the source's float64 `parseInt(...) + 1` increments exactly — the
collision loop terminates, within `|existingNames| + 1` iterations of the
outer do-while loop (one unit of fuel per iteration; `existingNames` is the
deduplicated list of the other symbols' names), because each collision then
strictly increases the numeric suffix and each failed iteration's candidate
matches a distinct existing name.  At suffix 2^53 the increment stalls and
termination fails (see the counterexample). -/
theorem c8_resolver_terminates_bounded (symbols : List Symbol) (selfRef : Nat)
    (cand : JsString)
    (H : ∀ nm ∈ otherNames symbols selfRef, suffixVal nm < 2 ^ 53) :
    ∃ r, generateUniqueNameAuxDouble symbols selfRef
        ((otherNames symbols selfRef).dedup.length + 1) cand = some r := by
  rw [generateUniqueNameAuxDouble_eq symbols selfRef H]
  exact generateUniqueNameAux_dedup_total symbols selfRef cand

/-- Witness for the amended C8: one existing name `"A (2)"`, candidate the
same string; the float64 loop resolves it within the bound. -/
theorem c8_resolver_terminates_bounded_witness :
    (∀ nm ∈ otherNames [plainSymbol 1 ['A', ' ', '(', '2', ')']] 2,
        suffixVal nm < 2 ^ 53)
    ∧ ∃ r, generateUniqueNameAuxDouble [plainSymbol 1 ['A', ' ', '(', '2', ')']] 2
        ((otherNames [plainSymbol 1 ['A', ' ', '(', '2', ')']] 2).dedup.length + 1)
        ['A', ' ', '(', '2', ')'] = some r :=
  ⟨by decide,
    c8_resolver_terminates_bounded [plainSymbol 1 ['A', ' ', '(', '2', ')']] 2
      ['A', ' ', '(', '2', ')'] (by decide)⟩

/-- C9: `removeSymbol` with a symbol not present in the Collection is a
no-op that changes nothing (first conjunct), and in particular a second
`removeSymbol` of an already-removed instance leaves the state of the first
removal unchanged (second conjunct); the embedding is total, so neither call
can throw. -/
theorem c9_remove_absent_noop (st : ManagerState) (symbol : Symbol) :
    (symbol.ref ∉ st.symbols.map (fun s => s.ref) → removeSymbol st symbol = st)
    ∧ removeSymbol (removeSymbol st symbol) symbol = removeSymbol st symbol := by
  constructor
  · exact removeSymbol_of_absent st symbol
  · apply removeSymbol_of_absent
    rw [removeSymbol_symbols]
    intro hmem
    obtain ⟨t, ht, hte⟩ := List.mem_map.mp hmem
    rw [List.mem_filter, bne_iff_ne] at ht
    exact ht.2 hte

/-- Witness for C9: removing a symbol whose identity is absent from a
concrete one-symbol state. -/
theorem c9_remove_absent_noop_witness :
    ((plainSymbol 7 ['Z']).ref ∉ oneSymbolState.symbols.map (fun s => s.ref))
    ∧ removeSymbol oneSymbolState (plainSymbol 7 ['Z']) = oneSymbolState :=
  ⟨by decide,
    (c9_remove_absent_noop oneSymbolState (plainSymbol 7 ['Z'])).1 (by decide)⟩

/-- C10: `restoreSymbols` never clears or replaces the Collection: when the
existing symbols' identities are below the fresh-identity counter (as for
every reachable state), every symbol present before the call is still
present unchanged, in place, as a prefix, and the restored records are
appended after them — so restoring into a non-empty Collection duplicates
previously restored symbols (one appended symbol per record, carrying the
record's `id`) rather than replacing them. -/
theorem c10_restore_appends (st : ManagerState) (recs : List SymbolRecord)
    (h : ∀ s ∈ st.symbols, s.ref < st.nextRef) :
    ∃ tail, (restoreSymbols st (ParseOutcome.value (some recs))).state.symbols
        = st.symbols ++ tail
      ∧ tail.map (fun s => s.id) = recs.map (fun r => r.id) := by
  rw [restoreSymbols_value_some]
  exact foldl_restoreStep_appends recs st h

/-- Witness for C10 at a concrete non-empty state and one record. -/
theorem c10_restore_appends_witness :
    (∀ s ∈ oneSymbolState.symbols, s.ref < oneSymbolState.nextRef)
    ∧ ∃ tail, (restoreSymbols oneSymbolState
          (ParseOutcome.value (some [sampleRecord]))).state.symbols
        = oneSymbolState.symbols ++ tail
      ∧ tail.map (fun s => s.id) = [sampleRecord].map (fun r => r.id) :=
  ⟨by decide, c10_restore_appends oneSymbolState [sampleRecord] (by decide)⟩

end WWE
